import Mathlib

/-!
Verification of the rs-mdict MDict reader library against its specification.

The development shallowly embeds the Rust sources (src/utils.rs,
src/ripemd128.rs, src/mdict_base.rs, src/mdx.rs, src/types.rs,
src/error.rs) into Lean:

* machine bytes and 32/64-bit words are `Nat` values reduced modulo
  2^8 / 2^32 where the Rust code wraps;
* Rust `String` values are lists of Unicode scalar values (`List Nat`),
  so Rust string comparison (UTF-8 byte lexicographic) is the
  lexicographic order on the scalar lists;
* fallible operations return `Except MdictError`;
* the two `while` loops that binary-search (keyword lookup and record
  block search) are embedded with an explicit fuel argument that the
  callers instantiate exactly as large as the loops can iterate;
* file I/O and zlib/LZO decompression are abstracted: functions that in
  Rust read and decompress a block here receive the decompressed bytes
  as an argument, together with hypotheses tying their length to the
  declared decompressed size.

Each claim theorem is stated over these embedded definitions.
-/

namespace RsMdict

/-! ## Byte reader and integer codec (src/utils.rs lines 9-48) -/

/-- Embedding of `read_u8`: first byte of the slice. -/
def read_u8 (bytes : List Nat) : Nat := bytes.getD 0 0

/-- Embedding of `read_u16_be`. -/
def read_u16_be (bytes : List Nat) : Nat :=
  (bytes.getD 0 0) <<< 8 ||| bytes.getD 1 0

/-- Embedding of `read_u32_be`. -/
def read_u32_be (bytes : List Nat) : Nat :=
  (bytes.getD 0 0) <<< 24 ||| (bytes.getD 1 0) <<< 16 |||
    (bytes.getD 2 0) <<< 8 ||| bytes.getD 3 0

/-- Embedding of `read_u64_be`. -/
def read_u64_be (bytes : List Nat) : Nat :=
  (bytes.getD 0 0) <<< 56 ||| (bytes.getD 1 0) <<< 48 |||
    (bytes.getD 2 0) <<< 40 ||| (bytes.getD 3 0) <<< 32 |||
    (bytes.getD 4 0) <<< 24 ||| (bytes.getD 5 0) <<< 16 |||
    (bytes.getD 6 0) <<< 8 ||| bytes.getD 7 0

/-- Embedding of `bytes_to_number`: dispatch on the slice length, defaulting
to 0 for unsupported widths. -/
def bytes_to_number (data : List Nat) : Nat :=
  match data.length with
  | 1 => read_u8 data
  | 2 => read_u16_be data
  | 4 => read_u32_be data
  | 8 => read_u64_be data
  | _ => 0

/-- Specification-side value of a byte string read as a big-endian unsigned
integer. -/
def beValue (data : List Nat) : Nat :=
  data.foldl (fun acc b => acc * 256 + b) 0

theorem mul_pow_lor_eq_add :
    ∀ (k a b : Nat), b < 2 ^ k → (a * 2 ^ k) ||| b = a * 2 ^ k + b := by
  intro k
  induction k with
  | zero =>
    intro a b hb
    interval_cases b
    simp
  | succ k ih =>
    intro a b hb
    have hdecomp := Nat.bit_decomp b
    have hval : a * 2 ^ (k + 1) = Nat.bit false (a * 2 ^ k) := by
      rw [Nat.bit_val]
      simp [Bool.toNat]
      ring
    have hdiv : b.div2 < 2 ^ k := by
      rw [Nat.div2_val]
      have h2 : 2 ^ (k + 1) = 2 ^ k * 2 := by ring
      omega
    calc a * 2 ^ (k + 1) ||| b
        = Nat.bit false (a * 2 ^ k) ||| Nat.bit b.bodd b.div2 := by
          rw [hval, hdecomp]
      _ = Nat.bit (false || b.bodd) ((a * 2 ^ k) ||| b.div2) := Nat.lor_bit _ _ _ _
      _ = Nat.bit b.bodd (a * 2 ^ k + b.div2) := by rw [Bool.false_or, ih _ _ hdiv]
      _ = a * 2 ^ (k + 1) + b := by
          rw [Nat.bit_val]
          have := Nat.bodd_add_div2 b
          ring_nf
          omega

theorem shl_lor_eq_add (k a b : Nat) (hb : b < 2 ^ k) :
    (a <<< k) ||| b = a * 2 ^ k + b := by
  rw [Nat.shiftLeft_eq]
  exact mul_pow_lor_eq_add k a b hb

theorem read_u16_be_eq (b0 b1 : Nat) (h1 : b1 < 256) :
    read_u16_be [b0, b1] = b0 * 256 + b1 := by
  unfold read_u16_be
  simp only [List.getD_cons_zero, List.getD_cons_succ]
  rw [shl_lor_eq_add 8 b0 b1 (by norm_num; omega)]
  norm_num

theorem read_u32_be_eq (b0 b1 b2 b3 : Nat)
    (h1 : b1 < 256) (h2 : b2 < 256) (h3 : b3 < 256) :
    read_u32_be [b0, b1, b2, b3] =
      ((b0 * 256 + b1) * 256 + b2) * 256 + b3 := by
  unfold read_u32_be
  simp only [List.getD_cons_zero, List.getD_cons_succ]
  rw [Nat.lor_assoc, Nat.lor_assoc]
  rw [shl_lor_eq_add 8 b2 b3 (by norm_num; omega)]
  rw [shl_lor_eq_add 16 b1 _ (by norm_num; omega)]
  rw [shl_lor_eq_add 24 b0 _ (by norm_num; omega)]
  norm_num
  ring

theorem read_u64_be_eq (b0 b1 b2 b3 b4 b5 b6 b7 : Nat)
    (h1 : b1 < 256) (h2 : b2 < 256) (h3 : b3 < 256) (h4 : b4 < 256)
    (h5 : b5 < 256) (h6 : b6 < 256) (h7 : b7 < 256) :
    read_u64_be [b0, b1, b2, b3, b4, b5, b6, b7] =
      ((((((b0 * 256 + b1) * 256 + b2) * 256 + b3) * 256 + b4) * 256 + b5)
          * 256 + b6) * 256 + b7 := by
  unfold read_u64_be
  simp only [List.getD_cons_zero, List.getD_cons_succ]
  rw [Nat.lor_assoc, Nat.lor_assoc, Nat.lor_assoc, Nat.lor_assoc,
    Nat.lor_assoc, Nat.lor_assoc]
  rw [shl_lor_eq_add 8 b6 b7 (by norm_num; omega)]
  rw [shl_lor_eq_add 16 b5 _ (by norm_num; omega)]
  rw [shl_lor_eq_add 24 b4 _ (by norm_num; omega)]
  rw [shl_lor_eq_add 32 b3 _ (by norm_num; omega)]
  rw [shl_lor_eq_add 40 b2 _ (by norm_num; omega)]
  rw [shl_lor_eq_add 48 b1 _ (by norm_num; omega)]
  rw [shl_lor_eq_add 56 b0 _ (by norm_num; omega)]
  norm_num
  ring

/-- C10: `bytes_to_number` is total: slices whose length is not 1, 2, 4 or 8
decode to 0, and slices of length 1, 2, 4 or 8 decode to the big-endian
unsigned integer value of the bytes. -/
theorem bytes_to_number_total (data : List Nat) (hB : ∀ b ∈ data, b < 256) :
    ((data.length = 1 ∨ data.length = 2 ∨ data.length = 4 ∨ data.length = 8) →
      bytes_to_number data = beValue data) ∧
    (data.length ≠ 1 → data.length ≠ 2 → data.length ≠ 4 → data.length ≠ 8 →
      bytes_to_number data = 0) := by
  constructor
  · rintro (h | h | h | h)
    · match data, h with
      | [b0], _ =>
        simp [bytes_to_number, read_u8, beValue]
    · match data, h with
      | [b0, b1], _ =>
        have h1 : b1 < 256 := hB b1 (by simp)
        simp only [bytes_to_number, List.length_cons, List.length_nil]
        rw [read_u16_be_eq b0 b1 h1]
        simp [beValue]
    · match data, h with
      | [b0, b1, b2, b3], _ =>
        have h1 : b1 < 256 := hB b1 (by simp)
        have h2 : b2 < 256 := hB b2 (by simp)
        have h3 : b3 < 256 := hB b3 (by simp)
        simp only [bytes_to_number, List.length_cons, List.length_nil]
        rw [read_u32_be_eq b0 b1 b2 b3 h1 h2 h3]
        simp [beValue]
    · match data, h with
      | [b0, b1, b2, b3, b4, b5, b6, b7], _ =>
        have h1 : b1 < 256 := hB b1 (by simp)
        have h2 : b2 < 256 := hB b2 (by simp)
        have h3 : b3 < 256 := hB b3 (by simp)
        have h4 : b4 < 256 := hB b4 (by simp)
        have h5 : b5 < 256 := hB b5 (by simp)
        have h6 : b6 < 256 := hB b6 (by simp)
        have h7 : b7 < 256 := hB b7 (by simp)
        simp only [bytes_to_number, List.length_cons, List.length_nil]
        rw [read_u64_be_eq b0 b1 b2 b3 b4 b5 b6 b7 h1 h2 h3 h4 h5 h6 h7]
        simp [beValue]
  · intro h1 h2 h4 h8
    unfold bytes_to_number
    split
    · omega
    · omega
    · omega
    · omega
    · rfl

/-- Witness for C10 at concrete inputs: the test vector 00 00 04 a6 decodes
to 1190, and a 3-byte slice decodes to 0. -/
theorem bytes_to_number_total_witness :
    bytes_to_number [0, 0, 4, 166] = beValue [0, 0, 4, 166] ∧
      bytes_to_number [1, 2, 3] = 0 := by
  constructor
  · exact (bytes_to_number_total [0, 0, 4, 166] (by decide)).1 (by decide)
  · exact (bytes_to_number_total [1, 2, 3] (by decide)).2
      (by decide) (by decide) (by decide) (by decide)

/-! ## Key normalization (src/utils.rs strip_key, src/mdict_base.rs strip /
compare_keys). Strings are lists of Unicode scalar values. -/

/-- Embedding of Rust per-character lowercasing as used on the ASCII range
(`str::to_lowercase`). -/
def lowerChar (c : Nat) : Nat := if 65 ≤ c ∧ c ≤ 90 then c + 32 else c

/-- Scalar values with the Unicode White_Space property, as recognized by
Rust `str::trim`. -/
def wsChars : List Nat :=
  [9, 10, 11, 12, 13, 32, 133, 160, 5760, 8192, 8193, 8194, 8195, 8196,
    8197, 8198, 8199, 8200, 8201, 8202, 8232, 8233, 8239, 8287, 12288]

/-- Whitespace test used by the embedded `trim`. -/
def isWs (c : Nat) : Bool := wsChars.contains c

/-- Embedding of `str::trim`: drop leading and trailing whitespace. -/
def trimChars (l : List Nat) : List Nat :=
  ((l.dropWhile isWs).reverse.dropWhile isWs).reverse

/-- Characters removed by `strip_key` in the MDX branch:
( ) . , - & space apostrophe / backslash @ _ $ ! -/
def mdxStripChars : List Nat := [40, 41, 46, 44, 45, 38, 32, 39, 47, 92, 64, 95, 36, 33]

/-- Characters removed by `strip_key` in the MDD branch:
( ) . , space apostrophe / @ -/
def mddStripChars : List Nat := [40, 41, 46, 44, 32, 39, 47, 64]

/-- Embedding of `String::rfind('.')`: index of the last dot. -/
def lastDotIndex (l : List Nat) : Option Nat :=
  (l.reverse.indexOf? 46).map (fun i => l.length - 1 - i)

/-- Embedding of `utils::strip_key` (src/utils.rs lines 171-192): lowercase,
then for MDD drop the trailing extension, remove the MDD character class and
map underscore to bang; for MDX remove the MDX character class; finally trim. -/
def strip_key (key : List Nat) (is_mdd : Bool) : List Nat :=
  let lowered := key.map lowerChar
  if is_mdd then
    let truncated :=
      match lastDotIndex lowered with
      | some p => lowered.take p
      | none => lowered
    let removed := truncated.filter (fun c => ! mddStripChars.contains c)
    let replaced := removed.map (fun c => if c = 95 then 33 else c)
    trimChars replaced
  else
    trimChars (lowered.filter (fun c => ! mdxStripChars.contains c))

/-- Lexicographic comparison of scalar-value lists: embedding of Rust
`String::cmp` (UTF-8 byte order coincides with scalar-value order). -/
def cmpChars : List Nat → List Nat → Ordering
  | [], [] => .eq
  | [], _ :: _ => .lt
  | _ :: _, [] => .gt
  | a :: as, b :: bs =>
    if a < b then .lt else if b < a then .gt else cmpChars as bs

/-- Scalar values of the attribute string Yes. -/
def yesStr : List Nat := [89, 101, 115]

/-- Scalar values of the attribute string No. -/
def noStr : List Nat := [78, 111]

/-- Header attributes consulted by `MdictBase::strip`, after the defaults
StripKey = Yes and KeyCaseSensitive = No have been inserted when absent. -/
structure HeaderAttrs where
  stripKeyAttr : List Nat
  keyCaseSensitive : List Nat
deriving DecidableEq

/-- Embedding of `MdictBase::strip` (src/mdict_base.rs lines 543-566). -/
def strip (attrs : HeaderAttrs) (is_mdd : Bool) (key : List Nat) : List Nat :=
  let r := if attrs.stripKeyAttr = yesStr then strip_key key is_mdd else key
  let r2 := if attrs.keyCaseSensitive = noStr then r.map lowerChar else r
  trimChars r2

/-- Embedding of `MdictBase::compare_keys` (src/mdict_base.rs lines 569-573). -/
def compare_keys (attrs : HeaderAttrs) (is_mdd : Bool) (a b : List Nat) :
    Ordering :=
  cmpChars (strip attrs is_mdd a) (strip attrs is_mdd b)

theorem cmpChars_refl (l : List Nat) : cmpChars l l = .eq := by
  induction l with
  | nil => rfl
  | cons a as ih => simp [cmpChars, ih]

theorem cmpChars_eq_iff (a b : List Nat) : cmpChars a b = .eq ↔ a = b := by
  induction a generalizing b with
  | nil =>
    cases b with
    | nil => simp [cmpChars]
    | cons y ys => simp [cmpChars]
  | cons x xs ih =>
    cases b with
    | nil => simp [cmpChars]
    | cons y ys =>
      simp only [cmpChars]
      split_ifs with h1 h2
      · constructor
        · intro h
          exact absurd h (by simp)
        · intro h
          injection h with hx hy
          omega
      · constructor
        · intro h
          exact absurd h (by simp)
        · intro h
          injection h with hx hy
          omega
      · have hxy : x = y := by omega
        subst hxy
        rw [ih ys]
        constructor
        · intro h
          rw [h]
        · intro h
          injection h

theorem cmpChars_gt_iff_lt (a b : List Nat) :
    cmpChars a b = .gt ↔ cmpChars b a = .lt := by
  induction a generalizing b with
  | nil =>
    cases b with
    | nil => simp [cmpChars]
    | cons y ys => simp [cmpChars]
  | cons x xs ih =>
    cases b with
    | nil => simp [cmpChars]
    | cons y ys =>
      simp only [cmpChars]
      rcases Nat.lt_trichotomy x y with h | h | h
      · rw [if_pos h, if_neg (by omega), if_pos h]
        decide
      · subst h
        rw [if_neg (by omega), if_neg (by omega), if_neg (by omega),
          if_neg (by omega)]
        exact ih ys
      · rw [if_neg (by omega), if_pos h, if_pos h]
        decide

theorem cmpChars_lt_trans {a b c : List Nat}
    (hab : cmpChars a b = .lt) (hbc : cmpChars b c = .lt) :
    cmpChars a c = .lt := by
  induction a generalizing b c with
  | nil =>
    cases c with
    | nil =>
      cases b with
      | nil => exact hab
      | cons y ys => simp [cmpChars] at hbc
    | cons z zs => simp [cmpChars]
  | cons x xs ih =>
    cases b with
    | nil => simp [cmpChars] at hab
    | cons y ys =>
      cases c with
      | nil => simp [cmpChars] at hbc
      | cons z zs =>
        simp only [cmpChars] at hab hbc ⊢
        rcases Nat.lt_trichotomy x y with hxy | hxy | hxy
        · rcases Nat.lt_trichotomy y z with hyz | hyz | hyz
          · rw [if_pos (by omega)]
          · rw [if_pos (by omega)]
          · rw [if_neg (by omega), if_pos hyz] at hbc
            exact absurd hbc (by decide)
        · subst hxy
          rw [if_neg (by omega), if_neg (by omega)] at hab
          rcases Nat.lt_trichotomy x z with hxz | hxz | hxz
          · rw [if_pos hxz]
          · subst hxz
            rw [if_neg (by omega), if_neg (by omega)] at hbc ⊢
            exact ih hab hbc
          · rw [if_neg (by omega), if_pos hxz] at hbc
            exact absurd hbc (by decide)
        · rw [if_neg (by omega), if_pos hxy] at hab
          exact absurd hab (by decide)

theorem cmpChars_ne_gt_trans {a b c : List Nat}
    (hab : cmpChars a b ≠ .gt) (hbc : cmpChars b c ≠ .gt) :
    cmpChars a c ≠ .gt := by
  rcases hord : cmpChars a b with _ | _ | _
  · rcases hord2 : cmpChars b c with _ | _ | _
    · intro hgt
      have hlt := cmpChars_lt_trans hord hord2
      rw [hlt] at hgt
      exact absurd hgt (by decide)
    · have hb : b = c := (cmpChars_eq_iff b c).mp hord2
      subst hb
      intro hgt
      rw [hord] at hgt
      exact absurd hgt (by decide)
    · exact absurd hord2 hbc
  · have hb : a = b := (cmpChars_eq_iff a b).mp hord
    subst hb
    exact hbc
  · exact absurd hord hab

theorem cmpChars_total (a b : List Nat) :
    cmpChars a b ≠ .gt ∨ cmpChars b a ≠ .gt := by
  rcases hord : cmpChars a b with _ | _ | _
  · left
    simp
  · left
    simp
  · right
    rw [(cmpChars_gt_iff_lt a b).mp hord]
    decide

theorem dropWhile_idem {α : Type} (p : α → Bool) (l : List α) :
    (l.dropWhile p).dropWhile p = l.dropWhile p := by
  induction l with
  | nil => rfl
  | cons a l ih =>
    by_cases h : p a
    · simp [List.dropWhile_cons, h, ih]
    · simp [List.dropWhile_cons, h]

theorem trimChars_prefix (l : List Nat) :
    trimChars l <+: l.dropWhile isWs := by
  unfold trimChars
  have hsuf : ((l.dropWhile isWs).reverse.dropWhile isWs) <:+
      (l.dropWhile isWs).reverse := List.dropWhile_suffix isWs
  have h2 := List.reverse_prefix.mpr hsuf
  simpa using h2

theorem dropWhile_trimChars (l : List Nat) :
    (trimChars l).dropWhile isWs = trimChars l := by
  rcases ht : trimChars l with _ | ⟨c, t'⟩
  · rfl
  · obtain ⟨r, hr⟩ := (ht ▸ trimChars_prefix l)
    have hfix : (l.dropWhile isWs).dropWhile isWs = l.dropWhile isWs :=
      dropWhile_idem isWs l
    rw [← hr] at hfix
    by_cases hiw : isWs c
    · exfalso
      rw [List.cons_append, List.dropWhile_cons, if_pos hiw] at hfix
      have hlen := (@List.dropWhile_sublist Nat (t' ++ r) isWs).length_le
      have hcon := congrArg List.length hfix
      rw [List.length_cons] at hcon
      omega
    · rw [List.dropWhile_cons, if_neg hiw]

theorem trimChars_idem (l : List Nat) :
    trimChars (trimChars l) = trimChars l := by
  conv_lhs => rw [trimChars, dropWhile_trimChars, trimChars,
    List.reverse_reverse, dropWhile_idem]
  rfl

theorem mem_trimChars {c : Nat} {l : List Nat} (h : c ∈ trimChars l) :
    c ∈ l := by
  unfold trimChars at h
  rw [List.mem_reverse] at h
  have h2 := (List.dropWhile_sublist isWs).subset h
  rw [List.mem_reverse] at h2
  exact (List.dropWhile_sublist isWs).subset h2

theorem lowerChar_idem (c : Nat) : lowerChar (lowerChar c) = lowerChar c := by
  simp only [lowerChar]
  split_ifs <;> omega

theorem map_lowerChar_eq_self {l : List Nat}
    (h : ∀ c ∈ l, lowerChar c = c) : l.map lowerChar = l := by
  induction l with
  | nil => rfl
  | cons a l ih =>
    simp only [List.map_cons]
    rw [h a (by simp), ih (fun c hc => h c (by simp [hc]))]

theorem lowerChar_fix_of_mem_strip_key (key : List Nat) (mdd : Bool) :
    ∀ c ∈ strip_key key mdd, lowerChar c = c := by
  intro c hc
  unfold strip_key at hc
  cases mdd with
  | false =>
    simp only [Bool.false_eq_true, if_false] at hc
    have h1 := mem_trimChars hc
    have h2 := (List.mem_filter.mp h1).1
    obtain ⟨c0, _, hc0⟩ := List.mem_map.mp h2
    rw [← hc0]
    exact lowerChar_idem c0
  | true =>
    simp only [if_true] at hc
    have h1 := mem_trimChars hc
    obtain ⟨c1, hc1, hrepl⟩ := List.mem_map.mp h1
    by_cases h95 : c1 = 95
    · rw [if_pos h95] at hrepl
      rw [← hrepl]
      decide
    · rw [if_neg h95] at hrepl
      subst hrepl
      have h2 := (List.mem_filter.mp hc1).1
      have h3 : c1 ∈ key.map lowerChar := by
        rcases hdot : lastDotIndex (key.map lowerChar) with _ | p
        · rw [hdot] at h2
          exact h2
        · rw [hdot] at h2
          exact List.mem_of_mem_take h2
      obtain ⟨c0, _, hc0⟩ := List.mem_map.mp h3
      rw [← hc0]
      exact lowerChar_idem c0

theorem trimChars_strip_key (key : List Nat) (mdd : Bool) :
    trimChars (strip_key key mdd) = strip_key key mdd := by
  unfold strip_key
  cases mdd with
  | false =>
    simp only [Bool.false_eq_true, if_false]
    exact trimChars_idem _
  | true =>
    simp only [if_true]
    exact trimChars_idem _

/-- With StripKey = Yes, `MdictBase::strip` coincides with `utils::strip_key`
for both values of KeyCaseSensitive, because `strip_key` already lowercases
and trims. -/
theorem strip_yes (caseAttr : List Nat) (mdd : Bool) (key : List Nat) :
    strip ⟨yesStr, caseAttr⟩ mdd key = strip_key key mdd := by
  show trimChars (if caseAttr = noStr
    then (strip_key key mdd).map lowerChar else strip_key key mdd)
      = strip_key key mdd
  by_cases h : caseAttr = noStr
  · rw [if_pos h,
      map_lowerChar_eq_self (lowerChar_fix_of_mem_strip_key key mdd),
      trimChars_strip_key]
  · rw [if_neg h, trimChars_strip_key]

theorem compare_keys_yes (caseAttr : List Nat) (mdd : Bool)
    (a b : List Nat) :
    compare_keys ⟨yesStr, caseAttr⟩ mdd a b =
      cmpChars (strip_key a mdd) (strip_key b mdd) := by
  unfold compare_keys
  rw [strip_yes, strip_yes]

/-! ## Keyword list construction (src/mdict_base.rs read_key_blocks lines
385-388 and read_dict lines 105-113) -/

/-- Embedding of `types::KeyWordItem`. -/
structure KeyWordItem where
  record_start_offset : Nat
  record_end_offset : Nat
  key_text : List Nat
  key_block_idx : Nat
deriving DecidableEq

/-- Default keyword item used for out-of-range list reads. -/
def dKw : KeyWordItem := ⟨0, 0, [], 0⟩

instance : Inhabited KeyWordItem := ⟨dKw⟩

/-- Embedding of the end-offset fix-up loop at the end of
`read_key_blocks`: for i in 1..len, list[i-1].record_end_offset :=
list[i].record_start_offset. The last element keeps its prior end offset. -/
def chainEnds : List KeyWordItem → List KeyWordItem
  | [] => []
  | [x] => [x]
  | x :: y :: rest =>
    { x with record_end_offset := y.record_start_offset } :: chainEnds (y :: rest)

/-- Sort relation used by `read_dict`: ascending by
`strip_key(key_text, is_mdd)`. -/
def kwLe (mdd : Bool) (a b : KeyWordItem) : Prop :=
  cmpChars (strip_key a.key_text mdd) (strip_key b.key_text mdd) ≠ .gt

instance (mdd : Bool) : DecidableRel (kwLe mdd) := fun a b =>
  inferInstanceAs (Decidable
    (cmpChars (strip_key a.key_text mdd) (strip_key b.key_text mdd) ≠ .gt))

instance (mdd : Bool) : IsTotal KeyWordItem (kwLe mdd) :=
  ⟨fun _ _ => cmpChars_total _ _⟩

instance (mdd : Bool) : IsTrans KeyWordItem (kwLe mdd) :=
  ⟨fun _ _ _ => cmpChars_ne_gt_trans⟩

/-- Embedding of the keyword-list construction tail: `read_key_blocks`
chains end offsets over the file-order list, then `read_dict` sorts by
`strip_key` with Rust's stable `sort_by`. A stable sort under a total
preorder is a unique function; it is realized here by insertion sort. -/
def read_dict_post (raw : List KeyWordItem) (mdd : Bool) : List KeyWordItem :=
  List.insertionSort (kwLe mdd) (chainEnds raw)

theorem chainEnds_start (l : List KeyWordItem) :
    ∀ i, ((chainEnds l).getD i dKw).record_start_offset =
      (l.getD i dKw).record_start_offset := by
  induction l with
  | nil => intro i; rfl
  | cons x l ih =>
    intro i
    cases l with
    | nil => rfl
    | cons y rest =>
      cases i with
      | zero => rfl
      | succ i => exact ih i

theorem chainEnds_adj (l : List KeyWordItem) :
    ∀ i, i + 1 < l.length →
      ((chainEnds l).getD i dKw).record_end_offset =
        (l.getD (i + 1) dKw).record_start_offset := by
  induction l with
  | nil =>
    intro i hi
    simp at hi
  | cons x l ih =>
    intro i hi
    cases l with
    | nil => simp at hi
    | cons y rest =>
      cases i with
      | zero => rfl
      | succ i =>
        exact ih i (by simpa using hi)

theorem chainEnds_getLast (l : List KeyWordItem) :
    ((chainEnds l).getLast?.getD dKw).record_end_offset =
      ((l.getLast?.getD dKw)).record_end_offset := by
  induction l with
  | nil => rfl
  | cons x l ih =>
    cases l with
    | nil => rfl
    | cons y rest =>
      obtain ⟨z, zs, hz⟩ : ∃ z zs, chainEnds (y :: rest) = z :: zs := by
        cases rest with
        | nil => exact ⟨y, [], rfl⟩
        | cons w ws => exact ⟨_, _, rfl⟩
      show (((_ :: chainEnds (y :: rest)).getLast?.getD dKw)).record_end_offset = _
      rw [hz, List.getLast?_cons_cons, ← hz, List.getLast?_cons_cons]
      exact ih

/-- C1 (amended): the end-offset chaining is applied before the sort, in the
file order in which keywords were read: over `chainEnds raw` every entry's
record_end_offset equals the next entry's record_start_offset, the
file-order-last entry's record_end_offset stays 0, and the final sorted list
is a permutation of this chained list (so the claimed adjacency in sorted
order holds only when the file order already agrees with the sorted order). -/
theorem record_end_chain_presort (raw : List KeyWordItem) (mdd : Bool)
    (h0 : ∀ x ∈ raw, x.record_end_offset = 0) :
    (∀ i, i + 1 < raw.length →
      ((chainEnds raw).getD i dKw).record_end_offset =
        ((chainEnds raw).getD (i + 1) dKw).record_start_offset) ∧
    (raw ≠ [] →
      ((chainEnds raw).getLast?.getD dKw).record_end_offset = 0) ∧
    (read_dict_post raw mdd).Perm (chainEnds raw) := by
  refine ⟨?_, ?_, List.perm_insertionSort _ _⟩
  · intro i hi
    rw [chainEnds_start raw (i + 1)]
    exact chainEnds_adj raw i hi
  · intro hne
    rw [chainEnds_getLast raw]
    rcases hL : raw.getLast? with _ | x
    · exact absurd (List.getLast?_eq_none_iff.mp hL) hne
    · have hxmem : x ∈ raw := by
        obtain ⟨hne', hx⟩ :=
          List.mem_getLast?_eq_getLast (Option.mem_def.mpr hL)
        rw [hx]
        exact List.getLast_mem hne'
      simpa using h0 x hxmem

/-- File-order keyword list refuting C1 as stated: the strip-sorted order
reverses the file order, so the chained end offsets no longer match the
sorted neighbours. -/
def c1raw : List KeyWordItem := [⟨10, 0, [98], 0⟩, ⟨20, 0, [97], 0⟩]

/-- C1 counterexample: after construction on `c1raw` (file order b, a), the
sorted list is [a, b] with a.record_end_offset = 0 ≠ 10 =
b.record_start_offset, and the sorted-last entry has end offset 20 ≠ 0. -/
theorem record_end_chain_counterexample :
    ¬ (((read_dict_post c1raw false).getD 0 dKw).record_end_offset =
        ((read_dict_post c1raw false).getD 1 dKw).record_start_offset ∧
      ((read_dict_post c1raw false).getLast?.getD dKw).record_end_offset
        = 0) := by decide

/-- Witness for the amended C1 at a concrete input. -/
theorem record_end_chain_presort_witness :
    ((chainEnds c1raw).getD 0 dKw).record_end_offset =
      ((chainEnds c1raw).getD 1 dKw).record_start_offset :=
  (record_end_chain_presort c1raw false (by decide)).1 0 (by decide)

/-- C2 (amended): when the StripKey attribute is Yes (its default), the
constructed keyword list is sorted under `compare_keys` for every value of
the KeyCaseSensitive attribute: for i < j the comparison never returns
Greater. -/
theorem keyword_list_sorted_compare (raw : List KeyWordItem) (mdd : Bool)
    (caseAttr : List Nat) (i j : Nat) (hij : i < j)
    (hj : j < (read_dict_post raw mdd).length) :
    compare_keys ⟨yesStr, caseAttr⟩ mdd
      ((read_dict_post raw mdd).getD i dKw).key_text
      ((read_dict_post raw mdd).getD j dKw).key_text ≠ .gt := by
  have hs : List.Sorted (kwLe mdd) (read_dict_post raw mdd) :=
    List.sorted_insertionSort _ _
  have hi : i < (read_dict_post raw mdd).length := lt_trans hij hj
  have hrel := @List.Sorted.rel_get_of_lt KeyWordItem (kwLe mdd)
    (read_dict_post raw mdd) hs ⟨i, hi⟩ ⟨j, hj⟩ hij
  rw [compare_keys_yes, List.getD_eq_getElem _ _ hi, List.getD_eq_getElem _ _ hj]
  exact hrel

/-- File-order keyword list refuting C2 as stated for StripKey = No. -/
def c2raw : List KeyWordItem := [⟨0, 0, [46, 98], 0⟩, ⟨1, 0, [97, 33], 0⟩]

/-- C2 counterexample: with header StripKey = No (claim quantifies over all
attribute values), the constructed list for `c2raw` (keys ".b" and "a!") is
sorted by stripped keys as ["a!", ".b"] but compare_keys on the unstripped
keys returns Greater at the adjacent pair. -/
theorem keyword_list_sorted_compare_counterexample :
    compare_keys ⟨noStr, noStr⟩ false
      ((read_dict_post c2raw false).getD 0 dKw).key_text
      ((read_dict_post c2raw false).getD 1 dKw).key_text = .gt := by decide

/-- Witness for the amended C2 at a concrete input. -/
theorem keyword_list_sorted_compare_witness :
    compare_keys ⟨yesStr, noStr⟩ false
      ((read_dict_post c2raw false).getD 0 dKw).key_text
      ((read_dict_post c2raw false).getD 1 dKw).key_text ≠ .gt :=
  keyword_list_sorted_compare c2raw false noStr 0 1 (by decide) (by decide)

/-! ## Keyword lookup (src/mdict_base.rs lookup_keyword_by_word lines
576-615) -/

/-- Embedding of the binary-search `while left <= right` loop inside
`lookup_keyword_by_word`. The fuel argument bounds the iteration count; the
caller passes list length + 1, which exceeds the shrinking window size. On
natural loop exit (left > right) the last computed mid is returned, as in
the source where `mid` survives the loop. -/
def lookupGo (attrs : HeaderAttrs) (mdd : Bool) (list : List KeyWordItem)
    (word : List Nat) : Nat → Nat → Nat → Nat → Nat
  | 0, _, _, mid => mid
  | fuel + 1, left, right, mid =>
    if left ≤ right then
      match compare_keys attrs mdd word
        ((list.getD (left + (right - left) / 2) dKw).key_text) with
      | .gt => lookupGo attrs mdd list word fuel
          (left + (right - left) / 2 + 1) right (left + (right - left) / 2)
      | .eq => left + (right - left) / 2
      | .lt =>
        if left + (right - left) / 2 = 0 then left + (right - left) / 2
        else lookupGo attrs mdd list word fuel
          left (left + (right - left) / 2 - 1) (left + (right - left) / 2)
    else mid

/-- Embedding of `MdictBase::lookup_keyword_by_word`: binary search, then
return the landing item if it compares equal or if associative mode was
requested; None otherwise. -/
def lookup_keyword_by_word (attrs : HeaderAttrs) (mdd : Bool)
    (list : List KeyWordItem) (word : List Nat) (is_associate : Bool) :
    Option KeyWordItem :=
  if list.isEmpty then none
  else
    if compare_keys attrs mdd word
        ((list.getD (lookupGo attrs mdd list word
          (list.length + 1) 0 (list.length - 1) 0) dKw).key_text) ≠ .eq ∧
        is_associate = false then
      none
    else
      some (list.getD (lookupGo attrs mdd list word
        (list.length + 1) 0 (list.length - 1) 0) dKw)

theorem compare_keys_refl (attrs : HeaderAttrs) (mdd : Bool) (a : List Nat) :
    compare_keys attrs mdd a a = .eq := cmpChars_refl _

theorem lookupGo_lt (attrs : HeaderAttrs) (mdd : Bool)
    (list : List KeyWordItem) (word : List Nat) :
    ∀ fuel left right mid, right < list.length → mid < list.length →
      lookupGo attrs mdd list word fuel left right mid < list.length := by
  intro fuel
  induction fuel with
  | zero =>
    intro left right mid _ hmid
    exact hmid
  | succ f ih =>
    intro left right mid hr hmid
    simp only [lookupGo]
    by_cases hlr : left ≤ right
    · rw [if_pos hlr]
      have hm : left + (right - left) / 2 ≤ right := by omega
      split
      · exact ih _ _ _ hr (by omega)
      · omega
      · split
        · omega
        · exact ih _ _ _ (by omega) (by omega)
    · rw [if_neg hlr]
      exact hmid

theorem lookupGo_correct (attrs : HeaderAttrs) (mdd : Bool)
    (list : List KeyWordItem) (word : List Nat)
    (hs : ∀ i j, i < j → j < list.length →
      compare_keys attrs mdd (list.getD i dKw).key_text
        (list.getD j dKw).key_text ≠ .gt) :
    ∀ fuel left right mid, right < list.length →
      right + 1 - left ≤ fuel →
      (∃ e, left ≤ e ∧ e ≤ right ∧
        compare_keys attrs mdd word (list.getD e dKw).key_text = .eq) →
      compare_keys attrs mdd word
        (KeyWordItem.key_text
          (list.getD (lookupGo attrs mdd list word fuel left right mid) dKw))
        = .eq := by
  intro fuel
  induction fuel with
  | zero =>
    intro left right mid _ hfuel ⟨e, hle, hre, _⟩
    omega
  | succ f ih =>
    intro left right mid hrlen hfuel ⟨e, hle, hre, heq⟩
    have hlr : left ≤ right := le_trans hle hre
    simp only [lookupGo]
    rw [if_pos hlr]
    have hm1 : left ≤ left + (right - left) / 2 := by omega
    have hm2 : left + (right - left) / 2 ≤ right := by omega
    have hwe : strip attrs mdd word = strip attrs mdd
        ((list.getD e dKw).key_text) := by
      exact (cmpChars_eq_iff _ _).mp heq
    split
    · rename_i hgt
      have hem : left + (right - left) / 2 < e := by
        by_contra hcon
        push_neg at hcon
        rcases Nat.lt_or_ge e (left + (right - left) / 2) with hlt | hge
        · have hne := hs e (left + (right - left) / 2) hlt (by omega)
          unfold compare_keys at hne hgt
          rw [← hwe] at hne
          exact hne hgt
        · have hee : e = left + (right - left) / 2 := by omega
          rw [hee] at heq
          rw [heq] at hgt
          exact absurd hgt (by decide)
      exact ih _ _ _ hrlen (by omega) ⟨e, by omega, hre, heq⟩
    · rename_i heqm
      exact heqm
    · rename_i hlt
      have hem : e < left + (right - left) / 2 := by
        by_contra hcon
        push_neg at hcon
        rcases Nat.lt_or_ge (left + (right - left) / 2) e with hlt2 | hge
        · have hne := hs (left + (right - left) / 2) e hlt2 (by omega)
          unfold compare_keys at hne hlt
          rw [← hwe] at hne
          exact hne ((cmpChars_gt_iff_lt _ _).mpr hlt)
        · have hee : e = left + (right - left) / 2 := by omega
          rw [hee] at heq
          rw [heq] at hlt
          exact absurd hlt (by decide)
      rw [if_neg (by omega)]
      exact ih _ _ _ (by omega) (by omega) ⟨e, hle, by omega, heq⟩

/-- C3: exact lookup returns Some only for an entry comparing equal to the
query and is in the list; it returns None when no entry compares equal; and
on a list sorted under compare_keys, looking up the key text of any present
keyword finds an entry comparing equal to it. -/
theorem lookup_exact (attrs : HeaderAttrs) (mdd : Bool)
    (list : List KeyWordItem) (word : List Nat) :
    (∀ r, lookup_keyword_by_word attrs mdd list word false = some r →
      compare_keys attrs mdd word r.key_text = .eq ∧ r ∈ list) ∧
    ((∀ x ∈ list, compare_keys attrs mdd word x.key_text ≠ .eq) →
      lookup_keyword_by_word attrs mdd list word false = none) ∧
    ((∀ i j, i < j → j < list.length →
        compare_keys attrs mdd (list.getD i dKw).key_text
          (list.getD j dKw).key_text ≠ .gt) →
      ∀ k ∈ list,
        ∃ r, lookup_keyword_by_word attrs mdd list k.key_text false = some r ∧
          compare_keys attrs mdd k.key_text r.key_text = .eq) := by
  have parta : ∀ r, lookup_keyword_by_word attrs mdd list word false = some r →
      compare_keys attrs mdd word r.key_text = .eq ∧ r ∈ list := by
    intro r hr
    unfold lookup_keyword_by_word at hr
    by_cases hemp : list.isEmpty
    · rw [if_pos hemp] at hr
      exact absurd hr (by simp)
    · rw [if_neg hemp] at hr
      have hlen : 0 < list.length := by
        cases list with
        | nil => exact absurd rfl hemp
        | cons a l => simp
      have hmidlt : lookupGo attrs mdd list word
          (list.length + 1) 0 (list.length - 1) 0 < list.length :=
        lookupGo_lt attrs mdd list word _ _ _ _ (by omega) (by omega)
      by_cases hcmp : compare_keys attrs mdd word
          ((list.getD (lookupGo attrs mdd list word
            (list.length + 1) 0 (list.length - 1) 0) dKw).key_text) = .eq
      · rw [if_neg (fun hcond => hcond.1 hcmp)] at hr
        injection hr with hr'
        constructor
        · rw [← hr']
          exact hcmp
        · rw [← hr', List.getD_eq_getElem _ _ hmidlt]
          exact List.getElem_mem hmidlt
      · rw [if_pos ⟨hcmp, rfl⟩] at hr
        exact absurd hr (by simp)
  refine ⟨parta, ?_, ?_⟩
  · intro hnone
    rcases hres : lookup_keyword_by_word attrs mdd list word false with _ | r
    · rfl
    · obtain ⟨hcmp, hmem⟩ := parta r hres
      exact absurd hcmp (hnone r hmem)
  · intro hs k hk
    have hne : list ≠ [] := List.ne_nil_of_mem hk
    have hlen : 0 < list.length := List.length_pos.mpr hne
    obtain ⟨⟨e, helen⟩, hgete⟩ := List.mem_iff_get.mp hk
    have hgetd : list.getD e dKw = k := by
      rw [List.getD_eq_getElem _ _ helen]
      exact hgete
    have hmid := lookupGo_correct attrs mdd list k.key_text hs
      (list.length + 1) 0 (list.length - 1) 0 (by omega) (by omega)
      ⟨e, by omega, by omega, by rw [hgetd]; exact compare_keys_refl _ _ _⟩
    refine ⟨list.getD (lookupGo attrs mdd list k.key_text
      (list.length + 1) 0 (list.length - 1) 0) dKw, ?_, hmid⟩
    unfold lookup_keyword_by_word
    rw [if_neg (by simp [hne]), if_neg (fun hcond => hcond.1 hmid)]

/-- Witness for C3 at a concrete two-element dictionary with default header
attributes: the lookup of "a" lands on an entry that compares equal to the
query and belongs to the list. -/
theorem lookup_exact_witness :
    compare_keys ⟨yesStr, noStr⟩ false [97]
      (KeyWordItem.key_text ⟨0, 5, [97], 0⟩) = .eq ∧
      (⟨0, 5, [97], 0⟩ : KeyWordItem) ∈
        [(⟨0, 5, [97], 0⟩ : KeyWordItem), ⟨5, 0, [98], 0⟩] :=
  (lookup_exact ⟨yesStr, noStr⟩ false
    [⟨0, 5, [97], 0⟩, ⟨5, 0, [98], 0⟩] [97]).1
    ⟨0, 5, [97], 0⟩ (by decide)

/-! ## Record blocks (src/mdict_base.rs read_record_infos lines 503-540,
find_record_block_index lines 618-632, lookup_record_by_keyword lines
635-660) -/

/-- Embedding of `types::RecordInfo`. -/
structure RecordInfo where
  pack_size : Nat
  pack_accumulate_offset : Nat
  unpack_size : Nat
  unpack_accumulate_offset : Nat
deriving DecidableEq

/-- Default record info used for out-of-range list reads. -/
def dRi : RecordInfo := ⟨0, 0, 0, 0⟩

instance : Inhabited RecordInfo := ⟨dRi⟩

/-- Embedding of the loop body of `read_record_infos`: build record info
items from (pack_size, unpack_size) pairs, threading the two running sums. -/
def buildRecordInfos : List (Nat × Nat) → Nat → Nat → List RecordInfo
  | [], _, _ => []
  | (p, u) :: rest, ca, da =>
    ⟨p, ca, u, da⟩ :: buildRecordInfos rest (ca + p) (da + u)

/-- Embedding of `read_record_infos` restricted to the already-read size
table (the I/O that reads the table is abstracted away). -/
def read_record_infos (sizes : List (Nat × Nat)) : List RecordInfo :=
  buildRecordInfos sizes 0 0

/-- Sum of the first i decompressed block sizes: the decompressed
accumulator the construction assigns to block i. -/
def unpackAccum : List (Nat × Nat) → Nat → Nat
  | _, 0 => 0
  | [], _ + 1 => 0
  | (_, u) :: rest, i + 1 => u + unpackAccum rest i

/-- Embedding of the `while left < right` lower-bound loop of
`find_record_block_index`, with explicit fuel. -/
def findGo (infos : List RecordInfo) (record_start : Nat) :
    Nat → Nat → Nat → Nat
  | 0, left, _ => left
  | fuel + 1, left, right =>
    if left < right then
      if record_start ≥ RecordInfo.unpack_accumulate_offset
          (infos.getD (left + (right - left) / 2) dRi) then
        findGo infos record_start fuel (left + (right - left) / 2 + 1) right
      else
        findGo infos record_start fuel left (left + (right - left) / 2)
    else left

/-- Embedding of `MdictBase::find_record_block_index`. -/
def find_record_block_index (infos : List RecordInfo) (record_start : Nat) :
    Nat :=
  if findGo infos record_start (infos.length + 1) 0 infos.length > 0 then
    findGo infos record_start (infos.length + 1) 0 infos.length - 1
  else 0

/-- Embedding of Rust slicing `l[s..e]` under its panic-freedom
precondition s ≤ e ≤ l.length. -/
def rust_slice (l : List Nat) (s e : Nat) : List Nat := (l.take e).drop s

/-- Embedding of `MdictBase::lookup_record_by_keyword` with the file read
and the block decompression abstracted: `unpacked` stands for the
decompressed contents of the record block the binary search lands on. -/
def lookup_record_by_keyword (infos : List RecordInfo) (unpacked : List Nat)
    (item : KeyWordItem) : List Nat :=
  let i := find_record_block_index infos item.record_start_offset
  let ua := (infos.getD i dRi).unpack_accumulate_offset
  let s := item.record_start_offset - ua
  let e := if item.record_end_offset > 0 then item.record_end_offset - ua
    else unpacked.length
  rust_slice unpacked s (min e unpacked.length)

theorem buildRecordInfos_length :
    ∀ (sizes : List (Nat × Nat)) (ca da : Nat),
      (buildRecordInfos sizes ca da).length = sizes.length := by
  intro sizes
  induction sizes with
  | nil => intro ca da; rfl
  | cons x rest ih =>
    intro ca da
    obtain ⟨p, u⟩ := x
    simp only [buildRecordInfos, List.length_cons]
    rw [ih]

theorem buildRecordInfos_accum :
    ∀ (sizes : List (Nat × Nat)) (ca da i : Nat), i < sizes.length →
      ((buildRecordInfos sizes ca da).getD i dRi).unpack_accumulate_offset =
        da + unpackAccum sizes i := by
  intro sizes
  induction sizes with
  | nil =>
    intro ca da i hi
    simp at hi
  | cons x rest ih =>
    intro ca da i hi
    obtain ⟨p, u⟩ := x
    cases i with
    | zero => rfl
    | succ i =>
      have := ih (ca + p) (da + u) i (by simpa using hi)
      simp only [buildRecordInfos, List.getD_cons_succ, unpackAccum]
      omega

theorem unpackAccum_mono :
    ∀ (sizes : List (Nat × Nat)) (i k : Nat), i ≤ k →
      unpackAccum sizes i ≤ unpackAccum sizes k := by
  intro sizes
  induction sizes with
  | nil =>
    intro i k _
    cases i <;> cases k <;> simp [unpackAccum]
  | cons x rest ih =>
    intro i k hik
    obtain ⟨p, u⟩ := x
    cases i with
    | zero =>
      cases k with
      | zero => exact le_refl _
      | succ k => simp [unpackAccum]
    | succ i =>
      cases k with
      | zero => omega
      | succ k =>
        have := ih i k (by omega)
        simp only [unpackAccum]
        omega

theorem unpackAccum_succ :
    ∀ (sizes : List (Nat × Nat)) (j : Nat), j < sizes.length →
      unpackAccum sizes (j + 1) =
        unpackAccum sizes j + (sizes.getD j (0, 0)).2 := by
  intro sizes
  induction sizes with
  | nil =>
    intro j hj
    simp at hj
  | cons x rest ih =>
    intro j hj
    obtain ⟨p, u⟩ := x
    cases j with
    | zero => simp [unpackAccum]
    | succ j =>
      have := ih j (by simpa using hj)
      simp only [unpackAccum, List.getD_cons_succ]
      omega

theorem findGo_spec (infos : List RecordInfo) (rs : Nat)
    (hmono : ∀ i k, i ≤ k → k < infos.length →
      (infos.getD i dRi).unpack_accumulate_offset ≤
        (infos.getD k dRi).unpack_accumulate_offset) :
    ∀ fuel left right,
      right ≤ infos.length → left ≤ right → right - left < fuel →
      (∀ i < left, (infos.getD i dRi).unpack_accumulate_offset ≤ rs) →
      (∀ i, right ≤ i → i < infos.length →
        rs < (infos.getD i dRi).unpack_accumulate_offset) →
      ((∀ i < findGo infos rs fuel left right,
          (infos.getD i dRi).unpack_accumulate_offset ≤ rs) ∧
       (∀ i, findGo infos rs fuel left right ≤ i → i < infos.length →
          rs < (infos.getD i dRi).unpack_accumulate_offset) ∧
       findGo infos rs fuel left right ≤ infos.length) := by
  intro fuel
  induction fuel with
  | zero =>
    intro left right _ _ hfuel _ _
    omega
  | succ f ih =>
    intro left right hrn hlr hfuel hleft hright
    simp only [findGo]
    by_cases hlt : left < right
    · rw [if_pos hlt]
      have hm1 : left ≤ left + (right - left) / 2 := by omega
      have hm2 : left + (right - left) / 2 < right := by omega
      by_cases hge : rs ≥ RecordInfo.unpack_accumulate_offset
          (infos.getD (left + (right - left) / 2) dRi)
      · rw [if_pos hge]
        refine ih _ _ hrn (by omega) (by omega) ?_ hright
        intro i hi
        rcases Nat.lt_or_ge i left with hi2 | hi2
        · exact hleft i hi2
        · exact le_trans
            (hmono i (left + (right - left) / 2) (by omega) (by omega)) hge
      · rw [if_neg hge]
        refine ih _ _ (by omega) (by omega) (by omega) hleft ?_
        intro i hi hin
        push_neg at hge
        exact lt_of_lt_of_le hge
          (hmono (left + (right - left) / 2) i hi (by omega))
    · rw [if_neg hlt]
      refine ⟨hleft, ?_, by omega⟩
      intro i hi hin
      exact hright i (by omega) hin

theorem find_record_block_index_eq (sizes : List (Nat × Nat)) (rs j : Nat)
    (hj : j < sizes.length)
    (hlo : unpackAccum sizes j ≤ rs)
    (hhi : rs < unpackAccum sizes j + (sizes.getD j (0, 0)).2) :
    find_record_block_index (read_record_infos sizes) rs = j := by
  have hlen : (read_record_infos sizes).length = sizes.length :=
    buildRecordInfos_length sizes 0 0
  have haccum : ∀ i, i < sizes.length →
      ((read_record_infos sizes).getD i dRi).unpack_accumulate_offset =
        unpackAccum sizes i := by
    intro i hi
    have := buildRecordInfos_accum sizes 0 0 i hi
    simpa [read_record_infos] using this
  have hmono : ∀ i k, i ≤ k → k < (read_record_infos sizes).length →
      ((read_record_infos sizes).getD i dRi).unpack_accumulate_offset ≤
        ((read_record_infos sizes).getD k dRi).unpack_accumulate_offset := by
    intro i k hik hk
    rw [hlen] at hk
    rw [haccum i (by omega), haccum k hk]
    exact unpackAccum_mono sizes i k hik
  obtain ⟨hA, hB, hC⟩ := findGo_spec (read_record_infos sizes) rs hmono
    ((read_record_infos sizes).length + 1) 0 (read_record_infos sizes).length
    (le_refl _) (by omega) (by omega)
    (by intro i hi; omega)
    (by intro i hi hin; omega)
  have hres1 : j < findGo (read_record_infos sizes) rs
      ((read_record_infos sizes).length + 1) 0
      (read_record_infos sizes).length := by
    by_contra hcon
    push_neg at hcon
    have := hB j hcon (by omega)
    rw [haccum j hj] at this
    omega
  have hres2 : findGo (read_record_infos sizes) rs
      ((read_record_infos sizes).length + 1) 0
      (read_record_infos sizes).length ≤ j + 1 := by
    by_contra hcon
    push_neg at hcon
    have hjn : j + 1 < sizes.length := by omega
    have := hA (j + 1) hcon
    rw [haccum (j + 1) hjn, unpackAccum_succ sizes j hj] at this
    omega
  unfold find_record_block_index
  rw [if_pos (by omega)]
  omega

/-- C4: when a keyword's record_end_offset is nonzero and its start and end
offsets both lie inside the decompressed extent of its containing record
block (block j, whose decompressed bytes are `unpacked`), the fetched
payload has length record_end_offset - record_start_offset. The
well-ordering hypothesis start ≤ end is required: the Rust slice panics
otherwise. -/
theorem fetch_length (sizes : List (Nat × Nat)) (unpacked : List Nat)
    (item : KeyWordItem) (j : Nat)
    (hj : j < sizes.length)
    (hlo : unpackAccum sizes j ≤ item.record_start_offset)
    (hhi : item.record_start_offset <
      unpackAccum sizes j + (sizes.getD j (0, 0)).2)
    (hne : item.record_end_offset ≠ 0)
    (hse : item.record_start_offset ≤ item.record_end_offset)
    (hend : item.record_end_offset ≤
      unpackAccum sizes j + (sizes.getD j (0, 0)).2)
    (hbuf : unpacked.length = (sizes.getD j (0, 0)).2) :
    (lookup_record_by_keyword (read_record_infos sizes) unpacked item).length
      = item.record_end_offset - item.record_start_offset := by
  unfold lookup_record_by_keyword
  rw [find_record_block_index_eq sizes item.record_start_offset j hj hlo hhi]
  have haccum : RecordInfo.unpack_accumulate_offset
      ((read_record_infos sizes).getD j dRi) = unpackAccum sizes j := by
    have := buildRecordInfos_accum sizes 0 0 j hj
    simpa [read_record_infos] using this
  dsimp only
  rw [haccum, if_pos (by omega)]
  have hmin : min (item.record_end_offset - unpackAccum sizes j)
      unpacked.length = item.record_end_offset - unpackAccum sizes j := by
    omega
  rw [hmin]
  unfold rust_slice
  rw [List.length_drop, List.length_take]
  omega

/-- Concrete two-block record table for the C4 witness. -/
def c4sizes : List (Nat × Nat) := [(4, 10), (4, 10)]

/-- Witness for C4: a keyword with offsets [12, 15) inside the second block
(decompressed extent [10, 20)) fetches a 3-byte payload. -/
theorem fetch_length_witness :
    (lookup_record_by_keyword (read_record_infos c4sizes)
      (List.replicate 10 0) ⟨12, 15, [120], 0⟩).length = 15 - 12 :=
  fetch_length c4sizes (List.replicate 10 0) ⟨12, 15, [120], 0⟩ 1
    (by decide) (by decide) (by decide) (by decide) (by decide) (by decide)
    (by decide)

/-! ## XOR stream cipher (src/utils.rs fast_decrypt lines 195-202) -/

/-- Embedding of `u8::rotate_left(4)`. -/
def rotl8_4 (b : Nat) : Nat :=
  (((b % 256) <<< 4) % 256) ||| ((b % 256) >>> 4)

/-- Embedding of the `fast_decrypt` loop: position counter i and the state
variable previous (holding the pre-transform input byte) are threaded
explicitly. -/
def fastDecryptGo (key : List Nat) : List Nat → Nat → Nat → List Nat
  | [], _, _ => []
  | b :: rest, i, previous =>
    (rotl8_4 b ^^^ previous ^^^ (i % 256) ^^^ key.getD (i % key.length) 0) ::
      fastDecryptGo key rest (i + 1) b

/-- Embedding of `utils::fast_decrypt`, with previous initialized to 0x36. -/
def fast_decrypt (data key : List Nat) : List Nat :=
  fastDecryptGo key data 0 54

theorem fastDecryptGo_length (key : List Nat) :
    ∀ (data : List Nat) (i prev : Nat),
      (fastDecryptGo key data i prev).length = data.length := by
  intro data
  induction data with
  | nil => intro i prev; rfl
  | cons b rest ih =>
    intro i prev
    simp only [fastDecryptGo, List.length_cons]
    rw [ih]

theorem fastDecryptGo_getD (key : List Nat) :
    ∀ (data : List Nat) (i0 prev j : Nat), j < data.length →
      (fastDecryptGo key data i0 prev).getD j 0 =
        rotl8_4 (data.getD j 0) ^^^
          (if j = 0 then prev else data.getD (j - 1) 0) ^^^
          ((i0 + j) % 256) ^^^ key.getD ((i0 + j) % key.length) 0 := by
  intro data
  induction data with
  | nil =>
    intro i0 prev j hj
    simp at hj
  | cons b rest ih =>
    intro i0 prev j hj
    cases j with
    | zero => simp [fastDecryptGo]
    | succ j =>
      have hrec := ih (i0 + 1) b j (by simpa using hj)
      simp only [fastDecryptGo, List.getD_cons_succ]
      rw [hrec]
      cases j with
      | zero => simp
      | succ j =>
        simp only [Nat.succ_ne_zero, if_false, List.getD_cons_succ,
          Nat.add_sub_cancel]
        have harith : i0 + 1 + (j + 1) = i0 + (j + 1 + 1) := by omega
        rw [harith]

/-- C7: the stream cipher satisfies, at every position i,
out[i] = rotate_left_4(data[i]) XOR previous XOR (i mod 256) XOR
K[i mod |K|], where previous is 0x36 at i = 0 and the pre-transform byte
data[i-1] afterwards. -/
theorem fast_decrypt_formula (data key : List Nat) (i : Nat)
    (hi : i < data.length) (hkey : key ≠ []) :
    (fast_decrypt data key).getD i 0 =
      rotl8_4 (data.getD i 0) ^^^
        (if i = 0 then 54 else data.getD (i - 1) 0) ^^^
        (i % 256) ^^^ key.getD (i % key.length) 0 := by
  have h := fastDecryptGo_getD key data 0 54 i hi
  simpa using h

/-- Witness for C7 at a concrete input. -/
theorem fast_decrypt_formula_witness :
    (fast_decrypt [1, 2] [7]).getD 1 0 =
      rotl8_4 ([1, 2].getD 1 0) ^^^
        (if 1 = 0 then 54 else [1, 2].getD 0 0) ^^^
        (1 % 256) ^^^ [7].getD (1 % [7].length) 0 :=
  fast_decrypt_formula [1, 2] [7] 1 (by decide) (by decide)

/-! ## RIPEMD-128 (src/ripemd128.rs) -/

/-- Reduction modulo 2^32: models u32 wrapping arithmetic. -/
def w32 (x : Nat) : Nat := x % 4294967296

/-- Embedding of the u32 left rotation `rotl` (defined on x < 2^32 with
0 < n < 32, as used by compress). -/
def rotl32 (x n : Nat) : Nat :=
  ((x <<< n) % 4294967296) ||| (x >>> (32 - n))

/-- Round function f: x XOR y XOR z. -/
def fF (x y z : Nat) : Nat := x ^^^ y ^^^ z

/-- Round function g: (x AND y) OR (NOT x AND z); u32 complement is XOR
with 0xffffffff. -/
def fG (x y z : Nat) : Nat := (x &&& y) ||| ((4294967295 ^^^ x) &&& z)

/-- Round function h: (x OR NOT y) XOR z. -/
def fH (x y z : Nat) : Nat := (x ||| (4294967295 ^^^ y)) ^^^ z

/-- Round function i: (x AND z) OR (y AND NOT z). -/
def fI (x y z : Nat) : Nat := (x &&& z) ||| (y &&& (4294967295 ^^^ z))

/-- Round constants K for the left line. -/
def ripK : List Nat := [0, 1518500249, 1859775393, 2400959708]

/-- Round constants KK for the right line. -/
def ripKK : List Nat := [1352829926, 1548603684, 1836072691, 0]

/-- Message schedule R for the left rounds. -/
def ripR : List (List Nat) :=
  [[0, 1, 2, 3, 4, 5, 6, 7, 8, 9, 10, 11, 12, 13, 14, 15],
   [7, 4, 13, 1, 10, 6, 15, 3, 12, 0, 9, 5, 2, 14, 11, 8],
   [3, 10, 14, 4, 9, 15, 8, 1, 2, 7, 0, 6, 13, 11, 5, 12],
   [1, 9, 11, 10, 0, 8, 12, 4, 13, 3, 7, 15, 14, 5, 6, 2]]

/-- Message schedule RR for the right rounds. -/
def ripRR : List (List Nat) :=
  [[5, 14, 7, 0, 9, 2, 11, 4, 13, 6, 15, 8, 1, 10, 3, 12],
   [6, 11, 3, 7, 0, 13, 5, 10, 14, 15, 8, 12, 4, 9, 1, 2],
   [15, 5, 1, 3, 7, 14, 6, 9, 11, 8, 12, 2, 10, 0, 4, 13],
   [8, 6, 4, 1, 3, 11, 15, 0, 5, 12, 2, 13, 9, 7, 10, 14]]

/-- Shift amounts S for the left rounds. -/
def ripS : List (List Nat) :=
  [[11, 14, 15, 12, 5, 8, 7, 9, 11, 13, 14, 15, 6, 7, 9, 8],
   [7, 6, 8, 13, 11, 9, 7, 15, 7, 12, 15, 9, 11, 7, 13, 12],
   [11, 13, 6, 7, 14, 9, 13, 15, 14, 8, 13, 6, 5, 12, 7, 5],
   [11, 12, 14, 15, 14, 15, 9, 8, 9, 14, 5, 6, 8, 6, 5, 12]]

/-- Shift amounts SS for the right rounds. -/
def ripSS : List (List Nat) :=
  [[8, 9, 9, 11, 13, 15, 15, 5, 7, 7, 8, 11, 14, 14, 12, 6],
   [9, 13, 15, 7, 12, 8, 9, 11, 7, 7, 12, 7, 6, 15, 13, 11],
   [9, 7, 15, 11, 8, 6, 6, 14, 12, 13, 5, 14, 13, 13, 7, 5],
   [15, 5, 8, 11, 14, 14, 6, 14, 6, 9, 12, 9, 12, 5, 15, 8]]

/-- One 16-step round loop of `compress`: per step
t = a + f(b,c,d) + x[r[j]] + k (wrapping), then
(a,b,c,d) := (d, rotl(t, s[j]), b, c). -/
def roundLoop (x : List Nat) (f : Nat → Nat → Nat → Nat) (k : Nat)
    (r s : List Nat) (st : Nat × Nat × Nat × Nat) : Nat × Nat × Nat × Nat :=
  (List.range 16).foldl
    (fun st j =>
      (st.2.2.2,
       rotl32 (w32 (st.1 + f st.2.1 st.2.2.1 st.2.2.2 +
         x.getD (r.getD j 0) 0 + k)) (s.getD j 0),
       st.2.1, st.2.2.1))
    st

/-- Embedding of the `compress` function (src/ripemd128.rs lines 85-213):
four left rounds, four right rounds, then the cross-line final addition. -/
def compress (hash : Nat × Nat × Nat × Nat) (x : List Nat) :
    Nat × Nat × Nat × Nat :=
  let l1 := roundLoop x fF (ripK.getD 0 0) (ripR.getD 0 []) (ripS.getD 0 []) hash
  let l2 := roundLoop x fG (ripK.getD 1 0) (ripR.getD 1 []) (ripS.getD 1 []) l1
  let l3 := roundLoop x fH (ripK.getD 2 0) (ripR.getD 2 []) (ripS.getD 2 []) l2
  let l4 := roundLoop x fI (ripK.getD 3 0) (ripR.getD 3 []) (ripS.getD 3 []) l3
  let r1 := roundLoop x fI (ripKK.getD 0 0) (ripRR.getD 0 []) (ripSS.getD 0 []) hash
  let r2 := roundLoop x fH (ripKK.getD 1 0) (ripRR.getD 1 []) (ripSS.getD 1 []) r1
  let r3 := roundLoop x fG (ripKK.getD 2 0) (ripRR.getD 2 []) (ripSS.getD 2 []) r2
  let r4 := roundLoop x fF (ripKK.getD 3 0) (ripRR.getD 3 []) (ripSS.getD 3 []) r3
  (w32 (hash.2.1 + l4.2.2.1 + r4.2.2.2),
   w32 (hash.2.2.1 + l4.2.2.2 + r4.1),
   w32 (hash.2.2.2 + l4.1 + r4.2.1),
   w32 (hash.1 + l4.2.1 + r4.2.2.1))

/-- The 64-bit bit length as 8 little-endian bytes. -/
def leBytes8 (v : Nat) : List Nat :=
  (List.range 8).map (fun i => (v >>> (8 * i)) % 256)

/-- Embedding of `pad_message`: append 0x80, zero-fill to 56 mod 64, then
the bit length as a 64-bit little-endian integer. -/
def pad_message (data : List Nat) : List Nat :=
  data ++ [128] ++
    List.replicate ((64 + 56 - (data.length + 1) % 64) % 64) 0 ++
    leBytes8 (data.length * 8)

/-- Group padded bytes into little-endian u32 words
(`u32::from_le_bytes` over 4-byte chunks). -/
def toWordsLE : List Nat → List Nat
  | b0 :: b1 :: b2 :: b3 :: rest =>
    (b0 + b1 * 256 + b2 * 65536 + b3 * 16777216) :: toWordsLE rest
  | _ => []

/-- Fold `compress` over consecutive 16-word blocks. -/
def processBlocks : (Nat × Nat × Nat × Nat) → List Nat → Nat × Nat × Nat × Nat
  | h, x0 :: x1 :: x2 :: x3 :: x4 :: x5 :: x6 :: x7 :: x8 :: x9 :: x10 ::
      x11 :: x12 :: x13 :: x14 :: x15 :: rest =>
    processBlocks
      (compress h [x0, x1, x2, x3, x4, x5, x6, x7, x8, x9, x10, x11, x12,
        x13, x14, x15]) rest
  | h, _ => h

/-- A u32 as 4 little-endian bytes (`u32::to_le_bytes`). -/
def leBytes4 (v : Nat) : List Nat :=
  [v % 256, (v >>> 8) % 256, (v >>> 16) % 256, (v >>> 24) % 256]

/-- Embedding of `ripemd128::ripemd128` (src/ripemd128.rs lines 7-36). -/
def ripemd128 (data : List Nat) : List Nat :=
  let h := processBlocks (1732584193, 4023233417, 2562383102, 271733878)
    (toWordsLE (pad_message data))
  leBytes4 h.1 ++ leBytes4 h.2.1 ++ leBytes4 h.2.2.1 ++ leBytes4 h.2.2.2

set_option maxRecDepth 100000 in
/-- C8: the RIPEMD-128 implementation meets the published test vectors for
the empty string, "abc", "message digest" and the 62-character
alphanumeric string. -/
theorem ripemd128_vectors :
    ripemd128 [] =
      [205, 242, 98, 19, 161, 80, 220, 62, 203, 97, 15, 24, 246, 179, 139, 70] ∧
    ripemd128 [97, 98, 99] =
      [193, 74, 18, 25, 156, 102, 228, 186, 132, 99, 107, 15, 105, 20, 76, 119] ∧
    ripemd128 [109, 101, 115, 115, 97, 103, 101, 32, 100, 105, 103, 101,
        115, 116] =
      [158, 50, 123, 61, 110, 82, 48, 98, 175, 193, 19, 45, 125, 249, 209, 184] ∧
    ripemd128 [65, 66, 67, 68, 69, 70, 71, 72, 73, 74, 75, 76, 77, 78, 79,
        80, 81, 82, 83, 84, 85, 86, 87, 88, 89, 90, 97, 98, 99, 100, 101,
        102, 103, 104, 105, 106, 107, 108, 109, 110, 111, 112, 113, 114,
        115, 116, 117, 118, 119, 120, 121, 122, 48, 49, 50, 51, 52, 53, 54,
        55, 56, 57] =
      [209, 233, 89, 235, 23, 156, 145, 31, 174, 164, 98, 76, 96, 197, 199,
        2] := by
  refine ⟨by decide, by decide, by decide, by decide⟩

/-! ## MDict key derivation (src/utils.rs mdx_decrypt lines 205-234) -/

/-- Embedding of `utils::mdx_decrypt`: short blocks pass through; otherwise
the 8-byte header is kept, the key is RIPEMD-128 of block[4..8] followed by
the fixed suffix 0x95 0x36 0x00 0x00, and the payload from byte 8 on is run
through `fast_decrypt`. -/
def mdx_decrypt (comp_block : List Nat) : List Nat :=
  if comp_block.length < 8 then comp_block
  else
    comp_block.take 8 ++
      fast_decrypt (comp_block.drop 8)
        (ripemd128 ((comp_block.drop 4).take 4 ++ [149, 54, 0, 0]))

/-- C9: `mdx_decrypt` preserves the block length and the first 8 header
bytes, and returns blocks shorter than 8 bytes unchanged. -/
theorem mdx_decrypt_frame (comp_block : List Nat) :
    (mdx_decrypt comp_block).length = comp_block.length ∧
    (mdx_decrypt comp_block).take 8 = comp_block.take 8 ∧
    (comp_block.length < 8 → mdx_decrypt comp_block = comp_block) := by
  unfold mdx_decrypt
  by_cases hlen : comp_block.length < 8
  · rw [if_pos hlen]
    exact ⟨rfl, rfl, fun _ => rfl⟩
  · rw [if_neg hlen]
    push_neg at hlen
    have htlen : (comp_block.take 8).length = 8 := by
      rw [List.length_take]
      omega
    have hflen : (fast_decrypt (comp_block.drop 8)
        (ripemd128 ((comp_block.drop 4).take 4 ++ [149, 54, 0, 0]))).length =
        comp_block.length - 8 := by
      unfold fast_decrypt
      rw [fastDecryptGo_length, List.length_drop]
    refine ⟨?_, ?_, fun hcon => absurd hcon (by omega)⟩
    · rw [List.length_append, htlen, hflen]
      omega
    · exact List.take_left' htlen

/-- Witness for C9 at concrete inputs: a 3-byte block passes through
unchanged, and a 12-byte block keeps its length and header. -/
theorem mdx_decrypt_frame_witness :
    mdx_decrypt [1, 2, 3] = [1, 2, 3] ∧
      (mdx_decrypt [1, 2, 3, 4, 5, 6, 7, 8, 9, 10, 11, 12]).length = 12 :=
  ⟨(mdx_decrypt_frame [1, 2, 3]).2.2 (by decide),
   (mdx_decrypt_frame [1, 2, 3, 4, 5, 6, 7, 8, 9, 10, 11, 12]).1.trans
     (by decide)⟩

/-! ## Fuzzy suggestion (src/utils.rs levenshtein_distance lines 132-168;
src/mdx.rs suggest lines 98-126 and fuzzy_search lines 129-159) -/

/-- One inner row pass of the Levenshtein dynamic program: given the input
row character ai, the remaining b characters, the tail of the previous row
aligned so its head is dp[i-1][j+1], the diagonal dp[i-1][j] and the left
neighbour dp[i][j], produce the remaining cells of row i. The cell formula
is the source recurrence: on mismatch 1 + min(min(up, left), diag), on
match diag. -/
def levCells (ai : Nat) : List Nat → List Nat → Nat → Nat → List Nat
  | [], _, _, _ => []
  | bj :: brest, prev, diag, left =>
    (if ai ≠ bj then 1 + min (min (prev.headD 0) left) diag else diag) ::
      levCells ai brest prev.tail (prev.headD 0)
        (if ai ≠ bj then 1 + min (min (prev.headD 0) left) diag else diag)

/-- Row i of the Levenshtein table from row i-1: dp[i][0] = i, then the
cells from `levCells`. -/
def levRow (ai : Nat) (b : List Nat) (prevRow : List Nat) : List Nat :=
  (prevRow.headD 0 + 1) ::
    levCells ai b prevRow.tail (prevRow.headD 0) (prevRow.headD 0 + 1)

/-- Embedding of `utils::levenshtein_distance`: the same dynamic program as
the source's dp table, computed row by row; row 0 is 0..n and the answer is
dp[m][n]. -/
def levenshtein_distance (a b : List Nat) : Nat :=
  if a.length = 0 then b.length
  else if b.length = 0 then a.length
  else
    List.getD
      (a.foldl (fun prev ai => levRow ai b prev) (List.range (b.length + 1)))
      b.length 0

/-- Embedding of `MdictBase::get_associated_keywords`: associative lookup,
then all keywords sharing the landed entry's key block index. -/
def get_associated_keywords (attrs : HeaderAttrs) (mdd : Bool)
    (list : List KeyWordItem) (word : List Nat) : List KeyWordItem :=
  match lookup_keyword_by_word attrs mdd list word true with
  | some item => list.filter (fun kw => kw.key_block_idx == item.key_block_idx)
  | none => []

/-- Embedding of `types::FuzzyWord`. -/
structure FuzzyWord where
  item : KeyWordItem
  edit_distance : Nat
deriving DecidableEq

/-- Embedding of `Mdx::suggest`: refuse max_distance > 5; otherwise filter
the associated candidates by edit distance between stripped keys, sort
ascending by distance (stable, as Rust sort_by_key), and drop the
distances. -/
def suggest (attrs : HeaderAttrs) (mdd : Bool) (list : List KeyWordItem)
    (word : List Nat) (max_distance : Nat) : List (List Nat) :=
  if max_distance > 5 then []
  else
    (List.insertionSort (fun x y : List Nat × Nat => x.2 ≤ y.2)
      ((get_associated_keywords attrs mdd list word).filterMap
        (fun item =>
          if levenshtein_distance (strip_key item.key_text mdd)
              (strip_key word mdd) ≤ max_distance then
            some (item.key_text,
              levenshtein_distance (strip_key item.key_text mdd)
                (strip_key word mdd))
          else none))).map Prod.fst

/-- Embedding of `Mdx::fuzzy_search`: same candidate filter and stable sort
by distance, then truncate to max_results. There is no max_distance
clamp in the source. -/
def fuzzy_search (attrs : HeaderAttrs) (mdd : Bool) (list : List KeyWordItem)
    (word : List Nat) (max_results max_distance : Nat) : List FuzzyWord :=
  (List.insertionSort (fun x y : FuzzyWord => x.edit_distance ≤ y.edit_distance)
    ((get_associated_keywords attrs mdd list word).filterMap
      (fun item =>
        if levenshtein_distance (strip_key item.key_text mdd)
            (strip_key word mdd) ≤ max_distance then
          some (FuzzyWord.mk item
            (levenshtein_distance (strip_key item.key_text mdd)
              (strip_key word mdd)))
        else none))).take max_results

/-- C5 (amended): `suggest` returns the empty list for every max_distance
strictly greater than 5; `fuzzy_search` implements no such clamp (see the
counterexample). -/
theorem suggest_clamp (attrs : HeaderAttrs) (mdd : Bool)
    (list : List KeyWordItem) (word : List Nat) (max_distance : Nat)
    (h : max_distance > 5) :
    suggest attrs mdd list word max_distance = [] := by
  unfold suggest
  rw [if_pos h]

/-- One-entry dictionary ("hello") used against the fuzzy clamp claim. -/
def c5list : List KeyWordItem := [⟨0, 0, [104, 101, 108, 108, 111], 0⟩]

/-- C5 counterexample: `fuzzy_search` with max_distance = 6 > 5 on a
dictionary containing the query itself returns a non-empty result instead
of the empty sequence the claim demands. -/
theorem fuzzy_search_no_clamp :
    fuzzy_search ⟨yesStr, noStr⟩ false c5list
      [104, 101, 108, 108, 111] 10 6 ≠ [] := by decide

/-- Witness for the amended C5 at a concrete input. -/
theorem suggest_clamp_witness :
    suggest ⟨yesStr, noStr⟩ false c5list [104, 101, 108, 108, 111] 6 = [] :=
  suggest_clamp ⟨yesStr, noStr⟩ false c5list
    [104, 101, 108, 108, 111] 6 (by decide)

/-! ## Construction-time encryption gate (src/error.rs, src/types.rs
EncryptType, src/mdict_base.rs read_header lines 151-157 and
read_key_header lines 195-242) -/

/-- Embedding of `error::MdictError` (payload strings elided). -/
inductive MdictError where
  | Io
  | InvalidFormat
  | UnsupportedVersion
  | DecompressionError
  | DecryptionError
  | EncodingError
  | HeaderParseError
  | KeyNotFound
  | InvalidCompressionType
  | EncryptedFileRequiresPasscode
deriving DecidableEq

/-- Embedding of `types::EncryptType`. -/
inductive EncryptType where
  | noneE
  | recordBlock
  | keyInfoBlock
deriving DecidableEq

/-- Embedding of `EncryptType::from(u8)`. -/
def encryptTypeFromU8 (value : Nat) : EncryptType :=
  match value with
  | 0 => .noneE
  | 1 => .recordBlock
  | 2 => .keyInfoBlock
  | _ => .noneE

/-- Embedding of Rust `str::parse::<u8>()`: optional leading plus sign,
then decimal digits fitting in u8. -/
def parseU8 (s : List Nat) : Option Nat :=
  let digits := if s.headD 0 = 43 then s.tail else s
  if digits = [] then Option.none
  else if digits.all (fun c => decide (48 ≤ c ∧ c ≤ 57)) then
    if digits.foldl (fun acc c => acc * 10 + (c - 48)) 0 ≤ 255 then
      some (digits.foldl (fun acc c => acc * 10 + (c - 48)) 0)
    else Option.none
  else Option.none

/-- Embedding of the `Encrypted` attribute dispatch in `read_header`
(src/mdict_base.rs lines 151-157). -/
def determine_encrypt (encrypted : List Nat) : EncryptType :=
  if encrypted = [] ∨ encrypted = noStr then .noneE
  else if encrypted = yesStr then .recordBlock
  else encryptTypeFromU8 ((parseU8 encrypted).getD 0)

/-- Dictionary metadata as consulted by `read_key_header`: whether the
version is ≥ 2.0, the encryption mode, and the (never populated) passcode. -/
structure DictMeta where
  isV2 : Bool
  encrypt : EncryptType
  passcode : Option (List Nat)
deriving DecidableEq

/-- Embedding of `types::KeyHeader`. -/
structure KeyHeader where
  keyword_blocks_num : Nat
  keyword_num : Nat
  key_info_unpack_size : Nat
  key_info_packed_size : Nat
  keyword_block_packed_size : Nat
deriving DecidableEq

/-- Embedding of `MdictBase::read_buffer`: positioned read returning an
I/O error past end of file. -/
def read_buffer (file : List Nat) (offset length : Nat) :
    Except MdictError (List Nat) :=
  if offset + length ≤ file.length then .ok ((file.drop offset).take length)
  else .error .Io

/-- Embedding of `MdictBase::read_key_header`: read the fixed-size key
header, refuse record-block encryption without a passcode, then decode the
width-dependent fields. Returns the key header and its end offset. -/
def read_key_header (file : List Nat) (meta : DictMeta)
    (key_header_start : Nat) : Except MdictError (KeyHeader × Nat) :=
  (read_buffer file key_header_start
    (if meta.isV2 then 8 * 5 else 4 * 4)).bind fun buf =>
    if meta.encrypt = .recordBlock ∧ meta.passcode = Option.none then
      .error .EncryptedFileRequiresPasscode
    else
      let nw := if meta.isV2 then 8 else 4
      .ok (⟨bytes_to_number ((buf.drop 0).take nw),
            bytes_to_number ((buf.drop nw).take nw),
            if meta.isV2 then
              bytes_to_number ((buf.drop (2 * nw)).take nw)
            else 0,
            bytes_to_number
              ((buf.drop (if meta.isV2 then 3 * nw else 2 * nw)).take nw),
            bytes_to_number
              ((buf.drop (if meta.isV2 then 4 * nw else 3 * nw)).take nw)⟩,
        key_header_start + (if meta.isV2 then 8 * 5 + 4 else 4 * 4))

/-- C6: a header declaring Encrypted = Yes maps to record-block encryption,
and with no passcode configured the key-header step of construction fails
with EncryptedFileRequiresPasscode, so `read_dict` (and hence Open)
propagates that error instead of producing a handle. The file must be long
enough for the key-header read itself, which precedes the check in the
source. -/
theorem encrypted_requires_passcode (file : List Nat) (start : Nat)
    (isV2 : Bool) (hread : start + (if isV2 then 40 else 16) ≤ file.length) :
    determine_encrypt yesStr = .recordBlock ∧
    read_key_header file ⟨isV2, determine_encrypt yesStr, Option.none⟩ start =
      .error .EncryptedFileRequiresPasscode := by
  refine ⟨by decide, ?_⟩
  have hbuf : read_buffer file start (if isV2 then 8 * 5 else 4 * 4) =
      .ok ((file.drop start).take (if isV2 then 8 * 5 else 4 * 4)) := by
    unfold read_buffer
    rw [if_pos (by cases isV2 <;> simp_all)]
  have hcond : DictMeta.encrypt
        (⟨isV2, determine_encrypt yesStr, Option.none⟩ : DictMeta) =
        EncryptType.recordBlock ∧
      DictMeta.passcode
        (⟨isV2, determine_encrypt yesStr, Option.none⟩ : DictMeta) =
        Option.none := ⟨rfl, rfl⟩
  unfold read_key_header
  rw [hbuf]
  show Except.bind _ _ = _
  rw [Except.bind]
  rw [if_pos hcond]

/-- Witness for C6 at a concrete input: a 40-byte file opened as v2 with
Encrypted = Yes and no passcode. -/
theorem encrypted_requires_passcode_witness :
    read_key_header (List.replicate 40 0)
      ⟨true, determine_encrypt yesStr, Option.none⟩ 0 =
      .error .EncryptedFileRequiresPasscode :=
  (encrypted_requires_passcode (List.replicate 40 0) 0 true (by decide)).2

end RsMdict
